import Mathlib

/-!
Verification of the `opus-subtitles` subtitle-extraction pipeline.

The development shallowly embeds the pure core of the repository:
`utils.py` (`strip_whitespaces`, `deduplicate_consecutive`, `is_cased`,
`iter_batch`) and `zipped.py` (`SubtitleXML` and its metadata accessors,
`ZippedSubtitles.list_xml_files`, the `parse_batch` worker function, and
the batch-dispatch set-up of `iter_xml_files`).

Python strings are modelled as `List Char` (`PyStr`), with the string
operations the code relies on (`strip`, `split`, `endswith`, `join`,
`isupper`, `islower`, `float`, `int`) defined over that model.  The XML
parser (`lxml`) and the language-tag resolver are external libraries,
so they enter the embedding as parameters; the parsed XML document is an
explicit tree on which the code's fixed XPath queries are evaluated.
-/

/-- Python `str` modelled as its sequence of characters. -/
abbrev PyStr := List Char

namespace PyStr

/-- The whitespace characters stripped by Python's `str.strip()`
(ASCII fragment, which is all that subtitle lines and numeric metadata
use). -/
def isPySpace (c : Char) : Bool :=
  c = ' ' || c = '\t' || c = '\n' || c = '\x0d' || c = '\x0b' || c = '\x0c'

/-- Python `str.strip()`: remove whitespace from both ends. -/
def strip (s : PyStr) : PyStr :=
  ((s.dropWhile isPySpace).reverse.dropWhile isPySpace).reverse

/-- Python `s.split(sep)` for a one-character separator. -/
def splitOnChar (sep : Char) (s : PyStr) : List PyStr :=
  List.splitOn sep s

/-- Python `s.endswith(suffix)`. -/
def endsWith (s suffix : PyStr) : Bool :=
  suffix.isSuffixOf s

/-- Python `sep.join(parts)`. -/
def join (sep : PyStr) (parts : List PyStr) : PyStr :=
  List.intercalate sep parts

/-- An ASCII uppercase letter. -/
def isUpperChar (c : Char) : Bool := 65 ≤ c.toNat && c.toNat ≤ 90

/-- An ASCII lowercase letter. -/
def isLowerChar (c : Char) : Bool := 97 ≤ c.toNat && c.toNat ≤ 122

/-- A cased character in the sense of Python's `str.isupper`/`str.islower`
(ASCII fragment: the letters; digits and punctuation are not cased). -/
def isCasedChar (c : Char) : Bool := isUpperChar c || isLowerChar c

/-- Python `str.isupper()`: at least one cased character and no cased
character is lowercase. -/
def isupper (s : PyStr) : Bool :=
  s.any isCasedChar && s.all (fun c => !isCasedChar c || isUpperChar c)

/-- Python `str.islower()`: at least one cased character and no cased
character is uppercase. -/
def islower (s : PyStr) : Bool :=
  s.any isCasedChar && s.all (fun c => !isCasedChar c || isLowerChar c)

/-- Python's lexicographic `<=` on strings, by code point. -/
def le (a b : PyStr) : Bool :=
  match a, b with
  | [], _ => true
  | _ :: _, [] => false
  | c :: cs, d :: ds =>
      if c.toNat < d.toNat then true
      else if d.toNat < c.toNat then false
      else le cs ds

/-- The digits of a decimal literal folded to a `Nat`; `none` unless the
character list is a non-empty run of ASCII digits. -/
def digitsToNat (cs : PyStr) : Option Nat :=
  if cs ≠ [] ∧ cs.all (fun c => 48 ≤ c.toNat && c.toNat ≤ 57) then
    some (cs.foldl (fun a c => 10 * a + (c.toNat - 48)) 0)
  else none

/-- Modelled from CPython `int(str)`: strip whitespace, optional sign,
then a non-empty run of decimal digits; anything else raises
`ValueError`, modelled as `none`.  (Underscore separators and non-decimal
bases are not used by the data and are omitted.) -/
def pyInt (s : PyStr) : Option Int :=
  match strip s with
  | '+' :: cs => (digitsToNat cs).map Int.ofNat
  | '-' :: cs => (digitsToNat cs).map (fun n => -(n : Int))
  | cs => (digitsToNat cs).map Int.ofNat

/-- An unsigned decimal float literal `ddd`, `ddd.ddd`, `.ddd` or `ddd.`
as a rational; `none` on anything else. -/
def floatUnsigned (cs : PyStr) : Option ℚ :=
  match splitOnChar '.' cs with
  | [ip] => (digitsToNat ip).map (fun n => (n : ℚ))
  | [ip, fp] =>
      if (ip ≠ [] ∨ fp ≠ []) ∧
          (ip.all (fun c => 48 ≤ c.toNat && c.toNat ≤ 57)) ∧
          (fp.all (fun c => 48 ≤ c.toNat && c.toNat ≤ 57)) then
        some ((ip.foldl (fun a c => 10 * a + (c.toNat - 48)) 0 : ℚ)
          + (fp.foldl (fun a c => 10 * a + (c.toNat - 48)) 0 : ℚ) / (10 ^ fp.length))
      else none
  | _ => none

/-- Modelled from CPython `float(str)`: strip whitespace, optional sign,
then a decimal literal; anything else raises `ValueError`, modelled as
`none`.  (Exponent, `inf` and `nan` forms are not used by the confidence
metadata and are omitted.) -/
def pyFloat (s : PyStr) : Option ℚ :=
  match strip s with
  | '+' :: cs => floatUnsigned cs
  | '-' :: cs => (floatUnsigned cs).map (fun q => -q)
  | cs => floatUnsigned cs

end PyStr

/-! ## `utils.py` -/

/-- `utils.strip_whitespaces`: strip whitespace on both ends of every
string, then drop the strings that became empty (`filter(None, ...)`). -/
def strip_whitespaces (my_texts : List PyStr) : List PyStr :=
  (my_texts.map PyStr.strip).filter (fun s => s ≠ [])

/-- `utils.deduplicate_consecutive`: keep the first element of every
maximal run of consecutive equal elements
(`map(itemgetter(0), groupby(my_texts))`). -/
def deduplicate_consecutive {α : Type} [DecidableEq α] : List α → List α
  | [] => []
  | [a] => [a]
  | a :: b :: l =>
      if a = b then deduplicate_consecutive (b :: l)
      else a :: deduplicate_consecutive (b :: l)

/-- `utils.is_cased`: `not (my_text.isupper() or my_text.islower())`. -/
def is_cased (my_text : PyStr) : Bool :=
  !(PyStr.isupper my_text || PyStr.islower my_text)

/-- `utils.iter_batch`, the loop body: `batch` is the list built so far;
each item is appended and the batch is flushed when its length reaches
`batch_size`; a non-empty trailing batch is flushed at the end. -/
def iter_batch_go {α : Type} (batch_size : Nat) (batch : List α) :
    List α → List (List α)
  | [] => if batch.isEmpty then [] else [batch]
  | x :: xs =>
      if (batch ++ [x]).length = batch_size then
        (batch ++ [x]) :: iter_batch_go batch_size [] xs
      else
        iter_batch_go batch_size (batch ++ [x]) xs

/-- `utils.iter_batch`: yield successive `batch_size`-sized chunks. -/
def iter_batch {α : Type} (iterable : List α) (batch_size : Nat) :
    List (List α) :=
  iter_batch_go batch_size [] iterable


/-! ## The XML document model

`lxml` documents are modelled as element trees: each element has a tag,
its direct text content (in document order), and child elements.  The
code only ever runs the fixed XPath queries `.//s/text()` and
`.//meta/<a>/<b>/text()`, which are evaluated structurally below. -/

inductive XMLTree : Type where
  | node (tag : PyStr) (texts : List PyStr) (children : List XMLTree)

def XMLTree.tag : XMLTree → PyStr
  | .node t _ _ => t

def XMLTree.texts : XMLTree → List PyStr
  | .node _ ts _ => ts

def XMLTree.children : XMLTree → List XMLTree
  | .node _ _ cs => cs

mutual

/-- All elements of the tree in document (pre-)order, root included. -/
def XMLTree.allElems : XMLTree → List XMLTree
  | .node t ts cs => .node t ts cs :: XMLTree.allElemsList cs

def XMLTree.allElemsList : List XMLTree → List XMLTree
  | [] => []
  | c :: cs => XMLTree.allElems c ++ XMLTree.allElemsList cs

end

/-- The child elements of `t` carrying the given tag. -/
def childrenTagged (t : XMLTree) (tag : PyStr) : List XMLTree :=
  t.children.filter (fun c => c.tag = tag)

/-- XPath `.//tag/text()`: the text content of every element with the
given tag, in document order. -/
def xpathDescTexts (t : XMLTree) (tag : PyStr) : List PyStr :=
  (((XMLTree.allElems t).filter (fun n => n.tag = tag)).map XMLTree.texts).flatten

/-- XPath `.//meta/<p1>/<p2>/text()[0]`: the first text item found under
a `meta` element's `p1` child's `p2` child, or `none` when the node is
missing (the source's `IndexError` branch). -/
def xpathMetaFirst (t : XMLTree) (p1 p2 : PyStr) : Option PyStr :=
  let metas := (XMLTree.allElems t).filter (fun n => n.tag = "meta".data)
  let l1 := (metas.map (fun m => childrenTagged m p1)).flatten
  let l2 := (l1.map (fun a => childrenTagged a p2)).flatten
  ((l2.map XMLTree.texts).flatten).head?

/-! ## `zipped.py`: `SubtitleXML` -/

/-- The Python exceptions that the modelled code can raise. -/
inductive PyError : Type where
  | valueError
  | zeroDivisionError
  | xmlSyntaxError
deriving DecidableEq

/-- The fallback document `etree.XML("<document></document>")`. -/
def emptyDocument : XMLTree := .node "document".data [] []

/-- `SubtitleXML.__init__`: parse the bytes with the recovering parser
(an external library, passed as the `parse` parameter); on
`XMLSyntaxError` fall back to the minimal empty document.  Total: the
constructor itself never raises. -/
def SubtitleXML_mk (parse : List Nat → Except PyError XMLTree)
    (xml_bytes : List Nat) : XMLTree :=
  match parse xml_bytes with
  | .ok tree => tree
  | .error _ => emptyDocument

namespace SubtitleXML

/-- `SubtitleXML.get_lines`: `.//s/text()`, whitespace-stripped and
empties dropped, optionally consecutive-deduplicated. -/
def get_lines (t : XMLTree) (dedup : Bool) : List PyStr :=
  let lines := xpathDescTexts t "s".data
  let lines := strip_whitespaces lines
  if dedup then deduplicate_consecutive lines else lines

/-- `SubtitleXML.language`: first `.//meta/subtitle/language/text()`
item, `None` when missing. -/
def language (t : XMLTree) : Option PyStr :=
  xpathMetaFirst t "subtitle".data "language".data

/-- `SubtitleXML.original`: first `.//meta/source/original/text()` item,
first comma-separated token, stripped; the empty string when missing. -/
def original (t : XMLTree) : PyStr :=
  match xpathMetaFirst t "source".data "original".data with
  | none => []
  | some s => PyStr.strip ((PyStr.splitOnChar ',' s).headD [])

/-- `SubtitleXML.confidence`: `float(...)` of the first
`.//meta/subtitle/confidence/text()` item; `None` when the node is
missing; `float` raises `ValueError` on unparsable text, which the
accessor does not catch. -/
def confidence (t : XMLTree) : Except PyError (Option ℚ) :=
  match xpathMetaFirst t "subtitle".data "confidence".data with
  | none => .ok none
  | some s =>
      match PyStr.pyFloat s with
      | some q => .ok (some q)
      | none => .error .valueError

/-- `SubtitleXML.machine_translated`: `bool(int(...))` of the first
`.//meta/subtitle/machine_translated/text()` item; `None` when the node
is missing; `int` raises `ValueError` on unparsable text, which the
accessor does not catch. -/
def machine_translated (t : XMLTree) : Except PyError (Option Bool) :=
  match xpathMetaFirst t "subtitle".data "machine_translated".data with
  | none => .ok none
  | some s =>
      match PyStr.pyInt s with
      | some n => .ok (some (n != 0))
      | none => .error .valueError

/-- `SubtitleXML.language_code`:
`get_language_code(self.original, macro=True)`, with the external
language-tag resolver passed as the parameter `glc`. -/
def language_code (glc : PyStr → PyStr) (t : XMLTree) : PyStr :=
  glc (original t)

end SubtitleXML

/-! ## `zipped.py`: `ZippedSubtitles` -/

/-- `xml_path.split("/")[-2]`, the IMDb id segment of an entry path.
A path with fewer than two segments would raise `IndexError` in the
source; the catalog's `.../{imdb_id}/{doc_id}.xml` layout never
produces one, and the model returns `[]` there. -/
def get_imdb_id (xml_path : PyStr) : PyStr :=
  ((PyStr.splitOnChar '/' xml_path).reverse.tail).headD []

/-- The tail of `groupby_heads` after a head with key `k`: skip the
rest of the current run, then take the head of every later run. -/
def groupby_heads_go {α β : Type} [DecidableEq β] (key : α → β) (k : β) :
    List α → List α
  | [] => []
  | x :: xs =>
      if key x = k then groupby_heads_go key k xs
      else x :: groupby_heads_go key (key x) xs

/-- `itertools.groupby(xs, key)` followed by taking `next(group)` for
each group: the first element of every maximal run of consecutive
elements sharing a key. -/
def groupby_heads {α β : Type} [DecidableEq β] (key : α → β) :
    List α → List α
  | [] => []
  | a :: l => a :: groupby_heads_go key (key a) l

/-- Spec-side runs decomposition, the groups of `itertools.groupby`:
`cur` is the currently open run (non-empty, all of key `k`); each
element extends it when its key matches and closes it otherwise. -/
def groupby_runs_go {α β : Type} [DecidableEq β] (key : α → β) (k : β)
    (cur : List α) : List α → List (List α)
  | [] => [cur]
  | x :: xs =>
      if key x = k then groupby_runs_go key k (cur ++ [x]) xs
      else cur :: groupby_runs_go key (key x) [x] xs

/-- Spec-side decomposition of a list into its maximal runs of
consecutive elements sharing a key, in order. -/
def groupby_runs {α β : Type} [DecidableEq β] (key : α → β) :
    List α → List (List α)
  | [] => []
  | a :: l => groupby_runs_go key (key a) [a] l

/-- `ZippedSubtitles.list_xml_files` as a function of the archive's
entry-name list: keep the `.xml` entries, if `distinct_title` keep only
the first entry of each consecutive same-IMDb-id run of the (unsorted)
name list, then sort the result. -/
def list_xml_files (namelist : List PyStr) (distinct_title : Bool) :
    List PyStr :=
  let xml_paths := namelist.filter (fun x => PyStr.endsWith x ".xml".data)
  let xml_paths :=
    if distinct_title then groupby_heads get_imdb_id xml_paths else xml_paths
  List.insertionSort (fun a b => PyStr.le a b = true) xml_paths

/-- One `(imdb_id, doc_id, xml_bytes)` triple handed to `parse_batch`
(built by `_iter_batch_xml_files.get_subtitle`). -/
structure Entry : Type where
  imdb_id : PyStr
  doc_id : PyStr
  xml_bytes : List Nat

/-- The per-run filter configuration captured by `parse_batch`:
`origin_lang` (`None` unless `original_only`), `cased_only`,
`deduplicate`. -/
structure FilterConfig : Type where
  origin_lang : Option PyStr
  cased_only : Bool
  deduplicate : Bool

/-- The guard `if origin_lang and subtitle_xml.language_code != origin_lang`
(`origin_lang` is falsy when `None` or empty). -/
def origin_lang_rejects (origin_lang : Option PyStr) (code : PyStr) : Bool :=
  match origin_lang with
  | none => false
  | some s => decide (s ≠ []) && decide (code ≠ s)

/-- The body of `parse_batch` for a single entry: `none` when a filter
rejects the entry (`continue`), otherwise the surviving
`(imdb_id, doc_id, lines)` triple. -/
def parse_one (glc : PyStr → PyStr)
    (parse : List Nat → Except PyError XMLTree) (cfg : FilterConfig)
    (e : Entry) : Option (PyStr × PyStr × List PyStr) :=
  let subtitle_xml := SubtitleXML_mk parse e.xml_bytes
  if origin_lang_rejects cfg.origin_lang
      (SubtitleXML.language_code glc subtitle_xml) then none
  else
    let lines := SubtitleXML.get_lines subtitle_xml cfg.deduplicate
    if cfg.cased_only && !is_cased (PyStr.join [' '] lines) then none
    else some (e.imdb_id, e.doc_id, lines)

/-- `parse_batch`: run the parse-and-filter body over every entry of the
batch in order, collecting the survivors. -/
def parse_batch (glc : PyStr → PyStr)
    (parse : List Nat → Except PyError XMLTree) (cfg : FilterConfig) :
    List Entry → List (PyStr × PyStr × List PyStr)
  | [] => []
  | e :: es =>
      match parse_one glc parse cfg e with
      | none => parse_batch glc parse cfg es
      | some r => r :: parse_batch glc parse cfg es

/-- The dispatch set-up of `ZippedSubtitles.iter_xml_files` before any
batch is sent to the pool: `nb_batches = nb_xml_files // batch_size + 1`
(a `ZeroDivisionError` when `batch_size == 0`), then a worker count of
`None` or less than 1 is replaced by `mp.cpu_count()`. -/
def iter_xml_files_setup (nb_xml_files : Nat) (batch_size : Int)
    (nb_workers : Option Int) (cpu_count : Int) :
    Except PyError (Int × Int) :=
  if batch_size = 0 then .error .zeroDivisionError
  else
    let nb_batches := Int.fdiv nb_xml_files batch_size + 1
    let workers :=
      match nb_workers with
      | none => cpu_count
      | some w => if w < 1 then cpu_count else w
    .ok (nb_batches, workers)

/-! ## Helper lemmas -/

theorem dedup_cons_head {α : Type} [DecidableEq α] (l : List α) (b : α) :
    ∃ t, deduplicate_consecutive (b :: l) = b :: t := by
  induction l generalizing b with
  | nil => exact ⟨[], rfl⟩
  | cons c l ih =>
      by_cases h : b = c
      · obtain ⟨t, ht⟩ := ih c
        subst h
        exact ⟨t, by simpa [deduplicate_consecutive] using ht⟩
      · exact ⟨deduplicate_consecutive (c :: l),
          by simp [deduplicate_consecutive, h]⟩

theorem dedup_chain_ne {α : Type} [DecidableEq α] (l : List α) :
    (deduplicate_consecutive l).Chain' (· ≠ ·) := by
  induction l with
  | nil => simp [deduplicate_consecutive]
  | cons a l ih =>
      cases l with
      | nil => simp [deduplicate_consecutive]
      | cons b l' =>
          by_cases h : a = b
          · simpa [deduplicate_consecutive, h] using ih
          · obtain ⟨t, ht⟩ := dedup_cons_head l' b
            rw [show deduplicate_consecutive (a :: b :: l')
                = a :: deduplicate_consecutive (b :: l') by
              simp [deduplicate_consecutive, h]]
            rw [ht] at ih ⊢
            exact List.chain'_cons.mpr ⟨h, ih⟩

theorem dedup_eq_self_of_chain {α : Type} [DecidableEq α] (l : List α)
    (h : l.Chain' (· ≠ ·)) : deduplicate_consecutive l = l := by
  induction l with
  | nil => rfl
  | cons a l ih =>
      cases l with
      | nil => rfl
      | cons b l' =>
          rw [List.chain'_cons] at h
          simp [deduplicate_consecutive, h.1, ih h.2]

/-! ## Claim theorems -/

/-- Claim C9: `deduplicate_consecutive` maps `[a,a,a,b,c,a,a]` to
`[a,b,c,a]` for pairwise-distinct `a`, `b`, `c` (only adjacent repeats
collapse, non-adjacent duplicates are kept), and it is idempotent. -/
theorem deduplicate_consecutive_spec :
    (∀ (α : Type) [DecidableEq α] (a b c : α),
      a ≠ b → b ≠ c → a ≠ c →
      deduplicate_consecutive [a, a, a, b, c, a, a] = [a, b, c, a]) ∧
    (∀ (α : Type) [DecidableEq α] (x : List α),
      deduplicate_consecutive (deduplicate_consecutive x)
        = deduplicate_consecutive x) := by
  constructor
  · intro α _ a b c hab hbc hac
    simp [deduplicate_consecutive, hab, hbc, Ne.symm hac]
  · intro α _ x
    exact dedup_eq_self_of_chain _ (dedup_chain_ne x)

/-- Witness for C9 at `a, b, c := 1, 2, 3` and `x := [1, 1, 2]`. -/
theorem deduplicate_consecutive_spec_witness :
    deduplicate_consecutive [1, 1, 1, 2, 3, 1, 1] = [1, 2, 3, 1] ∧
    deduplicate_consecutive (deduplicate_consecutive [1, 1, 2])
      = deduplicate_consecutive [1, 1, 2] :=
  ⟨deduplicate_consecutive_spec.1 Nat 1 2 3 (by decide) (by decide) (by decide),
   deduplicate_consecutive_spec.2 Nat [1, 1, 2]⟩

/-- Claim C7, counterexample: the claim says every string containing no
letters returns `False`, but `is_cased "123"` (pure digits) and
`is_cased "?!"` (pure punctuation) are `True`: a string with no cased
characters is neither `isupper` nor `islower` in Python, so the negated
disjunction is `True`. -/
theorem is_cased_letterless_cex :
    is_cased "123".data = true ∧ is_cased "?!".data = true := by decide

/-- Claim C7, amended: `is_cased "FOO" = False`, `is_cased "foo" = False`,
`is_cased "Foo" = True`, but every string with no cased characters (pure
punctuation or digits, or the empty string) returns `True`: such tokens
count as cased. -/
theorem is_cased_spec :
    is_cased "FOO".data = false ∧ is_cased "foo".data = false ∧
    is_cased "Foo".data = true ∧
    (∀ s : PyStr, (∀ c ∈ s, PyStr.isCasedChar c = false) →
      is_cased s = true) := by
  refine ⟨by decide, by decide, by decide, ?_⟩
  intro s h
  have hany : s.any PyStr.isCasedChar = false := by
    rw [List.any_eq_false]
    intro c hc
    simp [h c hc]
  simp [is_cased, PyStr.isupper, PyStr.islower, hany]

/-- Witness for C7 at the letterless string `"... 42 ..."`. -/
theorem is_cased_spec_witness : is_cased "... 42 ...".data = true :=
  is_cased_spec.2.2.2 "... 42 ...".data (by decide)

/-- Claim C2: the `SubtitleXML` constructor is total (it never raises);
whenever the recovering parser reports a syntax error the constructor
falls back to the minimal empty document, so `get_lines` returns the
empty list (for either `dedup` flag) and the document carries no
metadata: declared language, confidence and machine-translated flag are
absent and the original-language name is the empty string. -/
theorem subtitle_xml_fallback (parse : List Nat → Except PyError XMLTree)
    (xml_bytes : List Nat) (err : PyError)
    (h : parse xml_bytes = .error err) :
    SubtitleXML_mk parse xml_bytes = emptyDocument ∧
    (∀ dedup, SubtitleXML.get_lines (SubtitleXML_mk parse xml_bytes) dedup = []) ∧
    SubtitleXML.language (SubtitleXML_mk parse xml_bytes) = none ∧
    SubtitleXML.original (SubtitleXML_mk parse xml_bytes) = [] ∧
    SubtitleXML.confidence (SubtitleXML_mk parse xml_bytes) = .ok none ∧
    SubtitleXML.machine_translated (SubtitleXML_mk parse xml_bytes)
      = .ok none := by
  have hmk : SubtitleXML_mk parse xml_bytes = emptyDocument := by
    simp [SubtitleXML_mk, h]
  rw [hmk]
  refine ⟨rfl, ?_, rfl, rfl, rfl, rfl⟩
  intro dedup
  cases dedup <;> rfl

/-- Witness for C2: a parser that fails on the truncated input. -/
theorem subtitle_xml_fallback_witness :
    SubtitleXML_mk (fun _ => .error .xmlSyntaxError) [60] = emptyDocument ∧
    (∀ dedup,
      SubtitleXML.get_lines
        (SubtitleXML_mk (fun _ => .error .xmlSyntaxError) [60]) dedup = []) ∧
    SubtitleXML.language
      (SubtitleXML_mk (fun _ => .error .xmlSyntaxError) [60]) = none ∧
    SubtitleXML.original
      (SubtitleXML_mk (fun _ => .error .xmlSyntaxError) [60]) = [] ∧
    SubtitleXML.confidence
      (SubtitleXML_mk (fun _ => .error .xmlSyntaxError) [60]) = .ok none ∧
    SubtitleXML.machine_translated
      (SubtitleXML_mk (fun _ => .error .xmlSyntaxError) [60]) = .ok none :=
  subtitle_xml_fallback (fun _ => .error .xmlSyntaxError) [60]
    .xmlSyntaxError rfl

/-- Claim C10: every document whose XML lacks the
`.//meta/source/original` node — whatever other metadata it carries —
gets the empty string from the `original` accessor (whose return type
is a plain string, never an absent value), unlike `language`,
`confidence` and `machine_translated`, which return absent values on
every document missing their respective node. -/
theorem original_empty_of_missing (t : XMLTree)
    (ho : xpathMetaFirst t "source".data "original".data = none) :
    SubtitleXML.original t = [] ∧
    (∀ u : XMLTree,
      xpathMetaFirst u "subtitle".data "language".data = none →
        SubtitleXML.language u = none) ∧
    (∀ u : XMLTree,
      xpathMetaFirst u "subtitle".data "confidence".data = none →
        SubtitleXML.confidence u = .ok none) ∧
    (∀ u : XMLTree,
      xpathMetaFirst u "subtitle".data "machine_translated".data = none →
        SubtitleXML.machine_translated u = .ok none) := by
  refine ⟨by simp [SubtitleXML.original, ho], ?_, ?_, ?_⟩
  · intro u hu
    simp [SubtitleXML.language, hu]
  · intro u hu
    simp [SubtitleXML.confidence, hu]
  · intro u hu
    simp [SubtitleXML.machine_translated, hu]

/-- Witness for C10 at a typical document that carries a declared
subtitle language but no `original` node, and at a metadata-free
document for the three optional accessors. -/
theorem original_empty_of_missing_witness :
    SubtitleXML.original
      (.node "document".data []
        [.node "meta".data []
          [.node "subtitle".data []
            [.node "language".data ["en".data] []]]]) = [] ∧
    SubtitleXML.language (.node "document".data [] []) = none ∧
    SubtitleXML.confidence (.node "document".data [] []) = .ok none ∧
    SubtitleXML.machine_translated (.node "document".data [] [])
      = .ok none :=
  ⟨(original_empty_of_missing
      (.node "document".data []
        [.node "meta".data []
          [.node "subtitle".data []
            [.node "language".data ["en".data] []]]]) rfl).1,
   (original_empty_of_missing (.node "document".data [] []) rfl).2.1
     (.node "document".data [] []) rfl,
   (original_empty_of_missing (.node "document".data [] []) rfl).2.2.1
     (.node "document".data [] []) rfl,
   (original_empty_of_missing (.node "document".data [] []) rfl).2.2.2
     (.node "document".data [] []) rfl⟩

/-- Claim C5, counterexample: the claim says none of the accessors
raises for any content of its text node, but on a document whose
confidence node holds the text `"abc"` the accessor runs `float("abc")`
outside its `try`, raising `ValueError`. -/
theorem confidence_raises_cex :
    SubtitleXML.confidence
      (.node "document".data []
        [.node "meta".data []
          [.node "subtitle".data []
            [.node "confidence".data ["abc".data] []]]])
      = .error .valueError := by rfl

/-- Claim C5, amended: `language`, `confidence` and `machine_translated`
each return an absent value when their XML node is missing, and
`language` is total; but `confidence` and `machine_translated` apply
`float`/`int` to the node text outside the `try`, so each raises — and
raises `ValueError` — exactly when its node is present with text that
does not parse as a float/int respectively. -/
theorem metadata_accessor_errors (t u v : XMLTree)
    (hl : xpathMetaFirst t "subtitle".data "language".data = none)
    (hc : xpathMetaFirst t "subtitle".data "confidence".data = none)
    (hm : xpathMetaFirst t "subtitle".data "machine_translated".data
      = none) :
    (SubtitleXML.language t = none ∧
     SubtitleXML.confidence t = .ok none ∧
     SubtitleXML.machine_translated t = .ok none) ∧
    (∀ e : PyError, SubtitleXML.confidence u = .error e ↔
      (e = .valueError ∧
       ∃ s, xpathMetaFirst u "subtitle".data "confidence".data = some s ∧
        PyStr.pyFloat s = none)) ∧
    (∀ e : PyError, SubtitleXML.machine_translated v = .error e ↔
      (e = .valueError ∧
       ∃ s, xpathMetaFirst v "subtitle".data "machine_translated".data
          = some s ∧
        PyStr.pyInt s = none)) := by
  refine ⟨⟨?_, ?_, ?_⟩, ?_, ?_⟩
  · simp [SubtitleXML.language, hl]
  · simp [SubtitleXML.confidence, hc]
  · simp [SubtitleXML.machine_translated, hm]
  · intro e
    constructor
    · intro he
      unfold SubtitleXML.confidence at he
      split at he
      · exact absurd he (by simp)
      · rename_i s hx
        split at he
        · exact absurd he (by simp)
        · rename_i hf
          exact ⟨by injection he with h; exact h.symm, s, hx, hf⟩
    · rintro ⟨rfl, s, hx, hf⟩
      unfold SubtitleXML.confidence
      rw [hx]
      simp [hf]
  · intro e
    constructor
    · intro he
      unfold SubtitleXML.machine_translated at he
      split at he
      · exact absurd he (by simp)
      · rename_i s hx
        split at he
        · exact absurd he (by simp)
        · rename_i hf
          exact ⟨by injection he with h; exact h.symm, s, hx, hf⟩
    · rintro ⟨rfl, s, hx, hf⟩
      unfold SubtitleXML.machine_translated
      rw [hx]
      simp [hf]

/-- Witness for C5: a document with no `meta` element for the
absent-value clauses, a document whose confidence node holds `"abc"`
on which `confidence` raises `ValueError`, and a document whose
machine-translated node holds `"x"` on which `machine_translated`
raises `ValueError`. -/
theorem metadata_accessor_errors_witness :
    (SubtitleXML.language (.node "document".data [] []) = none ∧
     SubtitleXML.confidence (.node "document".data [] []) = .ok none ∧
     SubtitleXML.machine_translated (.node "document".data [] [])
        = .ok none) ∧
    SubtitleXML.confidence
      (.node "document".data []
        [.node "meta".data []
          [.node "subtitle".data []
            [.node "confidence".data ["abc".data] []]]])
      = .error .valueError ∧
    SubtitleXML.machine_translated
      (.node "document".data []
        [.node "meta".data []
          [.node "subtitle".data []
            [.node "machine_translated".data ["x".data] []]]])
      = .error .valueError :=
  ⟨(metadata_accessor_errors (.node "document".data [] [])
      (.node "document".data []
        [.node "meta".data []
          [.node "subtitle".data []
            [.node "confidence".data ["abc".data] []]]])
      (.node "document".data []
        [.node "meta".data []
          [.node "subtitle".data []
            [.node "machine_translated".data ["x".data] []]]])
      rfl rfl rfl).1,
   ((metadata_accessor_errors (.node "document".data [] [])
      (.node "document".data []
        [.node "meta".data []
          [.node "subtitle".data []
            [.node "confidence".data ["abc".data] []]]])
      (.node "document".data []
        [.node "meta".data []
          [.node "subtitle".data []
            [.node "machine_translated".data ["x".data] []]]])
      rfl rfl rfl).2.1 .valueError).mpr ⟨rfl, "abc".data, rfl, rfl⟩,
   ((metadata_accessor_errors (.node "document".data [] [])
      (.node "document".data []
        [.node "meta".data []
          [.node "subtitle".data []
            [.node "confidence".data ["abc".data] []]]])
      (.node "document".data []
        [.node "meta".data []
          [.node "subtitle".data []
            [.node "machine_translated".data ["x".data] []]]])
      rfl rfl rfl).2.2 .valueError).mpr ⟨rfl, "x".data, rfl, rfl⟩⟩

/-- Claim C6, counterexample: the claim says that with `cased_only`
enabled a document with an empty line sequence fails the casing filter
and is dropped, but `is_cased("")` is `True` (the empty joined string is
neither `isupper` nor `islower`), so the entry survives with an empty
line list. -/
theorem empty_lines_kept_cex :
    parse_batch (fun s => s)
      (fun _ => .ok (.node "document".data [] []))
      ⟨none, true, false⟩ [⟨"7".data, "1".data, []⟩]
      = [("7".data, "1".data, [])] := by rfl

/-- Claim C6, amended: in `parse_batch` with `cased_only` enabled and no
original-language filtering, a document whose extracted line sequence is
empty joins to the empty string, which `is_cased` maps to `True`, so the
entry passes the casing filter and is kept with an empty line list; no
runtime error occurs on the empty joined string. -/
theorem empty_lines_pass_casing (glc : PyStr → PyStr)
    (parse : List Nat → Except PyError XMLTree) (dedup : Bool) (e : Entry)
    (h : SubtitleXML.get_lines (SubtitleXML_mk parse e.xml_bytes) dedup
      = []) :
    parse_one glc parse ⟨none, true, dedup⟩ e
      = some (e.imdb_id, e.doc_id, []) := by
  simp [parse_one, origin_lang_rejects, h, PyStr.join, is_cased,
    PyStr.isupper, PyStr.islower, List.intercalate]

/-- Witness for C6 at a document with no subtitle lines. -/
theorem empty_lines_pass_casing_witness :
    parse_one (fun s => s)
      (fun _ => .ok (.node "document".data [] []))
      ⟨none, true, false⟩ ⟨"7".data, "1".data, []⟩
      = some ("7".data, "1".data, []) :=
  empty_lines_pass_casing (fun s => s)
    (fun _ => .ok (.node "document".data [] [])) false
    ⟨"7".data, "1".data, []⟩ rfl

/-- Claim C8, counterexample: the claim says a zero or negative batch
size or worker count aborts before dispatch, but a worker count of `0`
is silently replaced by the CPU count (here 8) and a negative batch size
of `-5` proceeds with a nonsensical batch count: both runs reach the
pool. -/
theorem worker_count_not_fatal_cex :
    iter_xml_files_setup 10 1000 (some 0) 8 = .ok (1, 8) ∧
    iter_xml_files_setup 10 (-5) (some 4) 8 = .ok (-1, 4) :=
  ⟨rfl, rfl⟩

/-- Claim C8, amended: at dispatch start, only a batch size of exactly
zero is fatal (a `ZeroDivisionError` from `nb_xml_files // batch_size`);
a negative batch size proceeds, and a worker count that is absent or
less than 1 is silently replaced by the CPU count rather than
aborting. -/
theorem dispatch_setup_spec (n : Nat) (b w c : Int) :
    (iter_xml_files_setup n 0 (some w) c = .error .zeroDivisionError) ∧
    (iter_xml_files_setup n 0 none c = .error .zeroDivisionError) ∧
    (b ≠ 0 → w < 1 →
      iter_xml_files_setup n b (some w) c
        = .ok (Int.fdiv (n : Int) b + 1, c)) ∧
    (b ≠ 0 → 1 ≤ w →
      iter_xml_files_setup n b (some w) c
        = .ok (Int.fdiv (n : Int) b + 1, w)) ∧
    (b ≠ 0 →
      iter_xml_files_setup n b none c
        = .ok (Int.fdiv (n : Int) b + 1, c)) := by
  refine ⟨by simp [iter_xml_files_setup], by simp [iter_xml_files_setup],
    ?_, ?_, ?_⟩
  · intro hb hw
    simp [iter_xml_files_setup, hb, hw]
  · intro hb hw
    simp [iter_xml_files_setup, hb, not_lt.mpr hw]
  · intro hb
    simp [iter_xml_files_setup, hb]

/-- Witness for C8: batch size `-1` and worker count `0` both pass the
set-up, the worker count replaced by the CPU count 8. -/
theorem dispatch_setup_spec_witness :
    iter_xml_files_setup 10 (-1) (some 0) 8
      = .ok (Int.fdiv (10 : Int) (-1) + 1, 8) :=
  (dispatch_setup_spec 10 (-1) 0 8).2.2.1 (by decide) (by decide)

theorem iter_batch_go_flatten {α : Type} (B : Nat) (l : List α) :
    ∀ acc : List α, (iter_batch_go B acc l).flatten = acc ++ l := by
  induction l with
  | nil =>
      intro acc
      cases acc <;> simp [iter_batch_go]
  | cons x xs ih =>
      intro acc
      by_cases h : acc.length + 1 = B
      · simp [iter_batch_go, h, ih]
      · simp [iter_batch_go, h, ih]

theorem iter_batch_go_length {α : Type} {B : Nat} (hB : 0 < B)
    (l : List α) :
    ∀ acc : List α, acc.length < B →
      (iter_batch_go B acc l).length
        = (acc.length + l.length + B - 1) / B := by
  induction l with
  | nil =>
      intro acc hacc
      cases acc with
      | nil =>
          simp [iter_batch_go, Nat.div_eq_of_lt (Nat.sub_lt hB Nat.one_pos)]
      | cons a as =>
          rw [show iter_batch_go B (a :: as) ([] : List α) = [a :: as]
            from rfl]
          have h1 : (a :: as).length + List.length ([] : List α) + B - 1
              = ((a :: as).length - 1) + B := by
            simp only [List.length_cons, List.length_nil]
            omega
          rw [List.length_singleton, h1, Nat.add_div_right _ hB,
            Nat.div_eq_of_lt
              (by simp only [List.length_cons] at hacc ⊢; omega)]
  | cons x xs ih =>
      intro acc hacc
      by_cases h : acc.length + 1 = B
      · rw [show iter_batch_go B acc (x :: xs)
            = (acc ++ [x]) :: iter_batch_go B [] xs
          from by simp [iter_batch_go, h]]
        rw [List.length_cons, ih [] hB]
        have harith : acc.length + (x :: xs).length + B - 1
            = ((List.length ([] : List α)) + xs.length + B - 1) + B := by
          simp only [List.length_cons, List.length_nil]
          omega
        rw [harith, Nat.add_div_right _ hB]
      · have h2 : (acc ++ [x]).length < B := by
          simp only [List.length_append, List.length_singleton]
          omega
        rw [show iter_batch_go B acc (x :: xs)
            = iter_batch_go B (acc ++ [x]) xs
          from by simp [iter_batch_go, h]]
        rw [ih (acc ++ [x]) h2]
        have harith : (acc ++ [x]).length + xs.length + B - 1
            = acc.length + (x :: xs).length + B - 1 := by
          simp only [List.length_append, List.length_singleton,
            List.length_cons, List.length_nil]
          omega
        rw [harith]

theorem iter_batch_go_ne_nil {α : Type} (B : Nat) (l : List α) :
    ∀ acc : List α, ∀ b ∈ iter_batch_go B acc l, b ≠ [] := by
  induction l with
  | nil =>
      intro acc b hb
      cases acc with
      | nil => simp [iter_batch_go] at hb
      | cons a as =>
          rw [show iter_batch_go B (a :: as) ([] : List α) = [a :: as]
            from rfl] at hb
          rw [List.mem_singleton] at hb
          subst hb
          simp
  | cons x xs ih =>
      intro acc b hb
      by_cases h : acc.length + 1 = B
      · rw [show iter_batch_go B acc (x :: xs)
            = (acc ++ [x]) :: iter_batch_go B [] xs
          from by simp [iter_batch_go, h]] at hb
        rcases List.mem_cons.mp hb with rfl | hb'
        · simp
        · exact ih [] b hb'
      · rw [show iter_batch_go B acc (x :: xs)
            = iter_batch_go B (acc ++ [x]) xs
          from by simp [iter_batch_go, h]] at hb
        exact ih (acc ++ [x]) b hb

theorem iter_batch_go_sizes {α : Type} (B : Nat) (l : List α) :
    ∀ acc : List α, ∀ b ∈ (iter_batch_go B acc l).dropLast,
      b.length = B := by
  induction l with
  | nil =>
      intro acc b hb
      cases acc <;> simp [iter_batch_go] at hb
  | cons x xs ih =>
      intro acc b hb
      by_cases h : acc.length + 1 = B
      · rw [show iter_batch_go B acc (x :: xs)
            = (acc ++ [x]) :: iter_batch_go B [] xs
          from by simp [iter_batch_go, h]] at hb
        cases hrest : iter_batch_go B [] xs with
        | nil => rw [hrest] at hb; simp at hb
        | cons y r =>
            rw [hrest, List.dropLast_cons₂] at hb
            rcases List.mem_cons.mp hb with rfl | hb'
            · simp only [List.length_append, List.length_singleton]
              exact h
            · exact ih [] b (by rw [hrest]; exact hb')
      · rw [show iter_batch_go B acc (x :: xs)
            = iter_batch_go B (acc ++ [x]) xs
          from by simp [iter_batch_go, h]] at hb
        exact ih (acc ++ [x]) b hb

/-- Claim C3: for every entry list of length `N` and every batch size
`B ≥ 1`, `iter_batch` yields exactly `⌈N / B⌉` batches (written
`(N + B - 1) / B` in natural division), all non-empty, every batch but
the last of size exactly `B`, and the concatenation of the batches is
the input list with no duplicates and no omissions. -/
theorem iter_batch_partition {α : Type} (l : List α) (B : Nat)
    (hB : 1 ≤ B) :
    (iter_batch l B).flatten = l ∧
    (iter_batch l B).length = (l.length + B - 1) / B ∧
    (∀ b ∈ iter_batch l B, b ≠ []) ∧
    (∀ b ∈ (iter_batch l B).dropLast, b.length = B) := by
  refine ⟨iter_batch_go_flatten B l [], ?_,
    iter_batch_go_ne_nil B l [], iter_batch_go_sizes B l []⟩
  have h := iter_batch_go_length hB l [] (by simpa using hB)
  simpa using h

/-- Witness for C3 at a 5-element list with batch size 2:
`⌈5 / 2⌉ = 3` batches `[10, 20]`, `[30, 40]`, `[50]`. -/
theorem iter_batch_partition_witness :
    (iter_batch [10, 20, 30, 40, 50] 2).flatten = [10, 20, 30, 40, 50] ∧
    (iter_batch [10, 20, 30, 40, 50] 2).length
      = ([10, 20, 30, 40, 50].length + 2 - 1) / 2 ∧
    (∀ b ∈ iter_batch [10, 20, 30, 40, 50] 2, b ≠ []) ∧
    (∀ b ∈ (iter_batch [10, 20, 30, 40, 50] 2).dropLast, b.length = 2) :=
  iter_batch_partition [10, 20, 30, 40, 50] 2 (by decide)

theorem parse_batch_eq_filterMap (glc : PyStr → PyStr)
    (parse : List Nat → Except PyError XMLTree) (cfg : FilterConfig)
    (l : List Entry) :
    parse_batch glc parse cfg l
      = List.filterMap (parse_one glc parse cfg) l := by
  induction l with
  | nil => rfl
  | cons e es ih =>
      rw [show parse_batch glc parse cfg (e :: es)
          = match parse_one glc parse cfg e with
            | none => parse_batch glc parse cfg es
            | some r => r :: parse_batch glc parse cfg es
        from rfl]
      rw [List.filterMap_cons]
      cases hp : parse_one glc parse cfg e with
      | none => exact ih
      | some r => exact congrArg (r :: ·) ih

theorem filterMap_flatten {α β : Type} (f : α → Option β)
    (bs : List (List α)) :
    (bs.map (List.filterMap f)).flatten = List.filterMap f bs.flatten := by
  induction bs with
  | nil => rfl
  | cons b bs ih =>
      rw [List.map_cons, List.flatten_cons, List.flatten_cons,
        List.filterMap_append, ih]

/-- Claim C4: the survivors of `parse_batch` do not depend on how the
entry list was cut into batches or in which order the batches complete:
for any batch list whose concatenation is the entry list, concatenating
the per-batch results equals running the per-entry parse-and-filter
body over the whole list, and for any batch list whose concatenation is
a permutation of the entry list (the unordered completion of
`imap_unordered`), the concatenated results are a permutation of the
whole-list run — each filter decision depends only on its single
entry. -/
theorem parse_batch_order_invariant (glc : PyStr → PyStr)
    (parse : List Nat → Except PyError XMLTree) (cfg : FilterConfig)
    (l : List Entry) (bs : List (List Entry)) :
    (bs.flatten = l →
      (bs.map (parse_batch glc parse cfg)).flatten
        = parse_batch glc parse cfg l) ∧
    (bs.flatten.Perm l →
      ((bs.map (parse_batch glc parse cfg)).flatten).Perm
        (parse_batch glc parse cfg l)) := by
  have hfun : parse_batch glc parse cfg
      = fun b => List.filterMap (parse_one glc parse cfg) b :=
    funext (parse_batch_eq_filterMap glc parse cfg)
  constructor
  · intro h
    simp only [hfun]
    rw [filterMap_flatten, h]
  · intro h
    simp only [hfun]
    rw [filterMap_flatten]
    exact h.filterMap _

/-- Witness for C4: two singleton batches over a two-entry list. -/
theorem parse_batch_order_invariant_witness :
    (([[⟨"7".data, "1".data, []⟩], [⟨"9".data, "5".data, []⟩]].map
        (parse_batch (fun s => s)
          (fun _ => .ok (.node "document".data [] []))
          ⟨none, false, false⟩)).flatten
      = parse_batch (fun s => s)
          (fun _ => .ok (.node "document".data [] []))
          ⟨none, false, false⟩
          [⟨"7".data, "1".data, []⟩, ⟨"9".data, "5".data, []⟩]) ∧
    ((([[⟨"7".data, "1".data, []⟩], [⟨"9".data, "5".data, []⟩]].map
        (parse_batch (fun s => s)
          (fun _ => .ok (.node "document".data [] []))
          ⟨none, false, false⟩)).flatten).Perm
      (parse_batch (fun s => s)
          (fun _ => .ok (.node "document".data [] []))
          ⟨none, false, false⟩
          [⟨"7".data, "1".data, []⟩, ⟨"9".data, "5".data, []⟩])) :=
  ⟨(parse_batch_order_invariant (fun s => s)
      (fun _ => .ok (.node "document".data [] []))
      ⟨none, false, false⟩
      [⟨"7".data, "1".data, []⟩, ⟨"9".data, "5".data, []⟩]
      [[⟨"7".data, "1".data, []⟩], [⟨"9".data, "5".data, []⟩]]).1 rfl,
   (parse_batch_order_invariant (fun s => s)
      (fun _ => .ok (.node "document".data [] []))
      ⟨none, false, false⟩
      [⟨"7".data, "1".data, []⟩, ⟨"9".data, "5".data, []⟩]
      [[⟨"7".data, "1".data, []⟩], [⟨"9".data, "5".data, []⟩]]).2
    (List.Perm.refl _)⟩

/-- Claim C1, counterexample: `list_xml_files` groups **before** it
sorts, so "first of each group" means first in the archive's namelist
order, not lexicographically smallest after sorting, and entries of one
title survive once per consecutive run, not once per title.  For the
contiguous namelist `7/3, 7/1, 7/2, 9/5` the survivor for title 7 is
`7/3.xml`, not the lexicographically smallest `7/1.xml`; for the
namelist `7/3, 9/5, 7/1, 7/2` (two runs for title 7) three entries
survive although only two title ids are distinct. -/
theorem list_xml_files_distinct_cex :
    (list_xml_files
        ["7/3.xml".data, "7/1.xml".data, "7/2.xml".data, "9/5.xml".data]
        true
      = ["7/3.xml".data, "9/5.xml".data]) ∧
    (list_xml_files
        ["7/3.xml".data, "9/5.xml".data, "7/1.xml".data, "7/2.xml".data]
        true).length = 3 := by decide

theorem groupby_heads_go_length {α β : Type} [DecidableEq β]
    (key : α → β) :
    ∀ (l : List α) (k : β),
      (groupby_heads_go key k l).length + 1
        = (deduplicate_consecutive (k :: l.map key)).length := by
  intro l
  induction l with
  | nil => intro k; rfl
  | cons x xs ih =>
      intro k
      by_cases h : key x = k
      · subst h
        rw [show groupby_heads_go key (key x) (x :: xs)
            = groupby_heads_go key (key x) xs
          from by simp [groupby_heads_go]]
        rw [ih (key x), List.map_cons]
        rw [show deduplicate_consecutive (key x :: key x :: xs.map key)
            = deduplicate_consecutive (key x :: xs.map key)
          from by simp [deduplicate_consecutive]]
      · rw [show groupby_heads_go key k (x :: xs)
            = x :: groupby_heads_go key (key x) xs
          from by simp [groupby_heads_go, h]]
        rw [List.length_cons, ih (key x), List.map_cons]
        rw [show deduplicate_consecutive (k :: key x :: xs.map key)
            = k :: deduplicate_consecutive (key x :: xs.map key)
          from by
            have hk : ¬k = key x := fun hh => h hh.symm
            simp [deduplicate_consecutive, hk]]
        rw [List.length_cons]

theorem groupby_heads_length {α β : Type} [DecidableEq β] (key : α → β)
    (l : List α) :
    (groupby_heads key l).length
      = (deduplicate_consecutive (l.map key)).length := by
  cases l with
  | nil => rfl
  | cons a l' =>
      rw [show groupby_heads key (a :: l')
          = a :: groupby_heads_go key (key a) l' from rfl]
      rw [List.length_cons, groupby_heads_go_length key l' (key a),
        List.map_cons]

theorem groupby_heads_go_subset {α β : Type} [DecidableEq β]
    (key : α → β) :
    ∀ (l : List α) (k : β), ∀ a ∈ groupby_heads_go key k l, a ∈ l := by
  intro l
  induction l with
  | nil =>
      intro k a ha
      exact absurd ha (by simp [groupby_heads_go])
  | cons x xs ih =>
      intro k a ha
      by_cases h : key x = k
      · rw [show groupby_heads_go key k (x :: xs)
            = groupby_heads_go key k xs
          from by simp [groupby_heads_go, h]] at ha
        exact List.mem_cons_of_mem x (ih k a ha)
      · rw [show groupby_heads_go key k (x :: xs)
            = x :: groupby_heads_go key (key x) xs
          from by simp [groupby_heads_go, h]] at ha
        rcases List.mem_cons.mp ha with rfl | ha'
        · exact List.mem_cons_self _ _
        · exact List.mem_cons_of_mem x (ih (key x) a ha')

theorem groupby_heads_subset {α β : Type} [DecidableEq β] (key : α → β)
    (l : List α) :
    ∀ a ∈ groupby_heads key l, a ∈ l := by
  cases l with
  | nil =>
      intro a ha
      exact absurd ha (by simp [groupby_heads])
  | cons b l' =>
      intro a ha
      have ha2 : a ∈ b :: groupby_heads_go key (key b) l' := ha
      rcases List.mem_cons.mp ha2 with rfl | ha'
      · exact List.mem_cons_self _ _
      · exact List.mem_cons_of_mem b
          (groupby_heads_go_subset key l' (key b) a ha')

theorem pyStrLe_total : ∀ a b : PyStr,
    PyStr.le a b = true ∨ PyStr.le b a = true := by
  intro a
  induction a with
  | nil =>
      intro b
      left
      cases b <;> rfl
  | cons c cs ih =>
      intro b
      cases b with
      | nil => right; rfl
      | cons d ds =>
          by_cases h1 : c.toNat < d.toNat
          · left
            simp [PyStr.le, h1]
          · by_cases h2 : d.toNat < c.toNat
            · right
              simp [PyStr.le, h2]
            · rcases ih ds with h | h
              · left
                simp [PyStr.le, h1, h2, h]
              · right
                simp [PyStr.le, h1, h2, h]

theorem pyStrLe_trans : ∀ a b c : PyStr,
    PyStr.le a b = true → PyStr.le b c = true → PyStr.le a c = true := by
  intro a
  induction a with
  | nil =>
      intro b c _ _
      cases c <;> rfl
  | cons x xs ih =>
      intro b c hab hbc
      cases b with
      | nil => simp [PyStr.le] at hab
      | cons y ys =>
          cases c with
          | nil => simp [PyStr.le] at hbc
          | cons z zs =>
              simp only [PyStr.le] at hab hbc ⊢
              by_cases h1 : x.toNat < y.toNat
              · by_cases h2 : y.toNat < z.toNat
                · have h3 : x.toNat < z.toNat := h1.trans h2
                  simp [h3]
                · by_cases h4 : z.toNat < y.toNat
                  · simp [h2, h4] at hbc
                  · have h3 : x.toNat < z.toNat := by omega
                    simp [h3]
              · by_cases h5 : y.toNat < x.toNat
                · simp [h1, h5] at hab
                · by_cases h2 : y.toNat < z.toNat
                  · have h3 : x.toNat < z.toNat := by omega
                    simp [h3]
                  · by_cases h4 : z.toNat < y.toNat
                    · simp [h2, h4] at hbc
                    · have h3 : ¬x.toNat < z.toNat := by omega
                      have h6 : ¬z.toNat < x.toNat := by omega
                      simp [h1, h5] at hab
                      simp [h2, h4] at hbc
                      simp [h3, h6]
                      exact ih ys zs hab hbc

theorem groupby_runs_go_flatten {α β : Type} [DecidableEq β]
    (key : α → β) :
    ∀ (l : List α) (k : β) (cur : List α),
      (groupby_runs_go key k cur l).flatten = cur ++ l := by
  intro l
  induction l with
  | nil =>
      intro k cur
      simp [groupby_runs_go]
  | cons x xs ih =>
      intro k cur
      by_cases h : key x = k
      · rw [show groupby_runs_go key k cur (x :: xs)
            = groupby_runs_go key k (cur ++ [x]) xs
          from by simp [groupby_runs_go, h]]
        rw [ih k (cur ++ [x])]
        simp
      · rw [show groupby_runs_go key k cur (x :: xs)
            = cur :: groupby_runs_go key (key x) [x] xs
          from by simp [groupby_runs_go, h]]
        rw [List.flatten_cons, ih (key x) [x]]
        simp

theorem groupby_runs_go_ne_nil {α β : Type} [DecidableEq β]
    (key : α → β) :
    ∀ (l : List α) (k : β) (cur : List α), cur ≠ [] →
      ∀ r ∈ groupby_runs_go key k cur l, r ≠ [] := by
  intro l
  induction l with
  | nil =>
      intro k cur hcur r hr
      rw [show groupby_runs_go key k cur [] = [cur] from rfl,
        List.mem_singleton] at hr
      subst hr
      exact hcur
  | cons x xs ih =>
      intro k cur hcur r hr
      by_cases h : key x = k
      · rw [show groupby_runs_go key k cur (x :: xs)
            = groupby_runs_go key k (cur ++ [x]) xs
          from by simp [groupby_runs_go, h]] at hr
        exact ih k (cur ++ [x]) (by simp) r hr
      · rw [show groupby_runs_go key k cur (x :: xs)
            = cur :: groupby_runs_go key (key x) [x] xs
          from by simp [groupby_runs_go, h]] at hr
        rcases List.mem_cons.mp hr with rfl | hr'
        · exact hcur
        · exact ih (key x) [x] (by simp) r hr'

theorem const_key_run {α β : Type} (key : α → β) (d : α) (k : β)
    (cur : List α) (hcur : ∀ p ∈ cur, key p = k) :
    ∀ p ∈ cur, key p = key (cur.headD d) := by
  intro p hp
  cases cur with
  | nil => simp at hp
  | cons c cs =>
      rw [show (c :: cs).headD d = c from rfl, hcur p hp,
        hcur c (by simp)]

theorem groupby_runs_go_const {α β : Type} [DecidableEq β]
    (key : α → β) (d : α) :
    ∀ (l : List α) (k : β) (cur : List α), (∀ p ∈ cur, key p = k) →
      ∀ r ∈ groupby_runs_go key k cur l, ∀ p ∈ r,
        key p = key (r.headD d) := by
  intro l
  induction l with
  | nil =>
      intro k cur hcur r hr
      rw [show groupby_runs_go key k cur [] = [cur] from rfl,
        List.mem_singleton] at hr
      subst hr
      exact const_key_run key d k _ hcur
  | cons x xs ih =>
      intro k cur hcur r hr
      by_cases h : key x = k
      · rw [show groupby_runs_go key k cur (x :: xs)
            = groupby_runs_go key k (cur ++ [x]) xs
          from by simp [groupby_runs_go, h]] at hr
        refine ih k (cur ++ [x]) ?_ r hr
        intro q hq
        rcases List.mem_append.mp hq with hq' | hq'
        · exact hcur q hq'
        · rw [List.mem_singleton] at hq'
          subst hq'
          exact h
      · rw [show groupby_runs_go key k cur (x :: xs)
            = cur :: groupby_runs_go key (key x) [x] xs
          from by simp [groupby_runs_go, h]] at hr
        rcases List.mem_cons.mp hr with rfl | hr'
        · exact const_key_run key d k r hcur
        · refine ih (key x) [x] ?_ r hr'
          intro q hq
          rw [List.mem_singleton] at hq
          subst hq
          rfl

theorem groupby_runs_go_head {α β : Type} [DecidableEq β]
    (key : α → β) (d : α) :
    ∀ (l : List α) (k : β) (cur : List α), cur ≠ [] →
      ∃ r0 t, groupby_runs_go key k cur l = r0 :: t ∧
        r0.headD d = cur.headD d := by
  intro l
  induction l with
  | nil =>
      intro k cur _
      exact ⟨cur, [], rfl, rfl⟩
  | cons x xs ih =>
      intro k cur hcur
      by_cases h : key x = k
      · obtain ⟨r0, t, ht, hh⟩ := ih k (cur ++ [x]) (by simp)
        refine ⟨r0, t, ?_, ?_⟩
        · rw [show groupby_runs_go key k cur (x :: xs)
              = groupby_runs_go key k (cur ++ [x]) xs
            from by simp [groupby_runs_go, h]]
          exact ht
        · rw [hh]
          cases cur with
          | nil => exact absurd rfl hcur
          | cons c cs => rfl
      · exact ⟨cur, groupby_runs_go key (key x) [x] xs,
          by simp [groupby_runs_go, h], rfl⟩

theorem groupby_runs_go_heads {α β : Type} [DecidableEq β]
    (key : α → β) (d : α) :
    ∀ (l : List α) (k : β) (cur : List α), cur ≠ [] →
      (groupby_runs_go key k cur l).map (fun r => r.headD d)
        = cur.headD d :: groupby_heads_go key k l := by
  intro l
  induction l with
  | nil =>
      intro k cur _
      rfl
  | cons x xs ih =>
      intro k cur hcur
      by_cases h : key x = k
      · rw [show groupby_runs_go key k cur (x :: xs)
            = groupby_runs_go key k (cur ++ [x]) xs
          from by simp [groupby_runs_go, h]]
        rw [ih k (cur ++ [x]) (by simp)]
        rw [show groupby_heads_go key k (x :: xs)
            = groupby_heads_go key k xs
          from by simp [groupby_heads_go, h]]
        cases cur with
        | nil => exact absurd rfl hcur
        | cons c cs => rfl
      · rw [show groupby_runs_go key k cur (x :: xs)
            = cur :: groupby_runs_go key (key x) [x] xs
          from by simp [groupby_runs_go, h]]
        rw [List.map_cons, ih (key x) [x] (by simp)]
        rw [show groupby_heads_go key k (x :: xs)
            = x :: groupby_heads_go key (key x) xs
          from by simp [groupby_heads_go, h]]
        rfl

theorem groupby_runs_go_chain {α β : Type} [DecidableEq β]
    (key : α → β) (d : α) :
    ∀ (l : List α) (k : β) (cur : List α), cur ≠ [] →
      (∀ p ∈ cur, key p = k) →
      List.Chain' (fun r s => key (r.headD d) ≠ key (s.headD d))
        (groupby_runs_go key k cur l) := by
  intro l
  induction l with
  | nil =>
      intro k cur _ _
      rw [show groupby_runs_go key k cur [] = [cur] from rfl]
      exact List.chain'_singleton cur
  | cons x xs ih =>
      intro k cur hcur hk
      by_cases h : key x = k
      · rw [show groupby_runs_go key k cur (x :: xs)
            = groupby_runs_go key k (cur ++ [x]) xs
          from by simp [groupby_runs_go, h]]
        refine ih k (cur ++ [x]) (by simp) ?_
        intro q hq
        rcases List.mem_append.mp hq with hq' | hq'
        · exact hk q hq'
        · rw [List.mem_singleton] at hq'
          subst hq'
          exact h
      · rw [show groupby_runs_go key k cur (x :: xs)
            = cur :: groupby_runs_go key (key x) [x] xs
          from by simp [groupby_runs_go, h]]
        rw [List.chain'_cons']
        constructor
        · intro y hy
          obtain ⟨r0, t0, ht0, hh0⟩ :=
            groupby_runs_go_head key d xs (key x) [x] (by simp)
          rw [ht0] at hy
          simp only [List.head?_cons, Option.mem_some_iff] at hy
          subst hy
          cases cur with
          | nil => exact absurd rfl hcur
          | cons c cs =>
              rw [show (c :: cs).headD d = c from rfl, hk c (by simp),
                hh0, show ([x] : List α).headD d = x from rfl]
              exact fun hh => h hh.symm
        · exact ih (key x) [x] (by simp)
            (by intro q hq; rw [List.mem_singleton] at hq; subst hq; rfl)

theorem groupby_runs_spec {α β : Type} [DecidableEq β] (key : α → β)
    (d : α) (L : List α) :
    (groupby_runs key L).flatten = L ∧
    (∀ r ∈ groupby_runs key L, r ≠ []) ∧
    (∀ r ∈ groupby_runs key L, ∀ p ∈ r, key p = key (r.headD d)) ∧
    List.Chain' (fun r s => key (r.headD d) ≠ key (s.headD d))
      (groupby_runs key L) ∧
    (groupby_runs key L).map (fun r => r.headD d)
      = groupby_heads key L := by
  cases L with
  | nil =>
      exact ⟨rfl, by simp [groupby_runs], by simp [groupby_runs],
        by simp [groupby_runs], rfl⟩
  | cons a l =>
      have hsingle : ∀ p ∈ ([a] : List α), key p = key a := by
        intro p hp
        rw [List.mem_singleton] at hp
        subst hp
        rfl
      refine ⟨?_, ?_, ?_, ?_, ?_⟩
      · rw [show groupby_runs key (a :: l)
            = groupby_runs_go key (key a) [a] l from rfl,
          groupby_runs_go_flatten]
        rfl
      · intro r hr
        exact groupby_runs_go_ne_nil key l (key a) [a] (by simp) r hr
      · intro r hr
        exact groupby_runs_go_const key d l (key a) [a] hsingle r hr
      · exact groupby_runs_go_chain key d l (key a) [a] (by simp) hsingle
      · rw [show groupby_runs key (a :: l)
            = groupby_runs_go key (key a) [a] l from rfl,
          groupby_runs_go_heads key d l (key a) [a] (by simp)]
        rfl

/-- Claim C1, amended: with `distinct_title=True`, `list_xml_files`
keeps, for each maximal run of consecutive `.xml` entries sharing a
title id in the archive's namelist order, exactly the first entry of
the run (first in namelist order, not the lexicographically smallest
document id), and returns the kept entries sorted.  Formally: the
filtered namelist decomposes into runs `rs` — non-empty, constant
title id within each run, adjacent runs with distinct title ids, and
concatenating back to the filtered namelist — such that the output is
a sorted permutation of the first entries of the runs; hence its
length is the number of runs (equal to the number of distinct title
ids only when each title's entries are contiguous), and every returned
entry is an `.xml` entry of the namelist. -/
theorem list_xml_files_distinct_spec (namelist : List PyStr) :
    ∃ rs : List (List PyStr),
      rs.flatten
        = namelist.filter (fun x => PyStr.endsWith x ".xml".data) ∧
      (∀ r ∈ rs, r ≠ []) ∧
      (∀ r ∈ rs, ∀ p ∈ r, get_imdb_id p = get_imdb_id (r.headD [])) ∧
      List.Chain'
        (fun r s => get_imdb_id (r.headD []) ≠ get_imdb_id (s.headD []))
        rs ∧
      (list_xml_files namelist true).Perm
        (rs.map (fun r => r.headD [])) ∧
      (list_xml_files namelist true).Sorted
        (fun a b => PyStr.le a b = true) ∧
      (list_xml_files namelist true).length = rs.length ∧
      ∀ p ∈ list_xml_files namelist true,
        p ∈ namelist ∧ PyStr.endsWith p ".xml".data = true := by
  have hfun : list_xml_files namelist true
      = List.insertionSort (fun a b => PyStr.le a b = true)
          (groupby_heads get_imdb_id
            (namelist.filter (fun x => PyStr.endsWith x ".xml".data))) :=
    rfl
  have hperm := List.perm_insertionSort (fun a b => PyStr.le a b = true)
    (groupby_heads get_imdb_id
      (namelist.filter (fun x => PyStr.endsWith x ".xml".data)))
  obtain ⟨hflat, hne, hconst, hchain, hheads⟩ :=
    groupby_runs_spec get_imdb_id ([] : PyStr)
      (namelist.filter (fun x => PyStr.endsWith x ".xml".data))
  refine ⟨groupby_runs get_imdb_id
      (namelist.filter (fun x => PyStr.endsWith x ".xml".data)),
    hflat, hne, hconst, hchain, ?_, ?_, ?_, ?_⟩
  · rw [hheads, hfun]
    exact hperm
  · rw [hfun]
    exact @List.sorted_insertionSort PyStr
      (fun a b => PyStr.le a b = true) _ ⟨pyStrLe_total⟩ ⟨pyStrLe_trans⟩ _
  · rw [hfun, hperm.length_eq, ← hheads, List.length_map]
  · intro p hp
    rw [hfun] at hp
    have hp2 := hperm.mem_iff.mp hp
    have hp3 := groupby_heads_subset get_imdb_id _ p hp2
    exact ⟨(List.mem_filter.mp hp3).1, (List.mem_filter.mp hp3).2⟩

/-- Witness for C1 at a two-entry namelist, with the membership clause
exercised at the surviving entry `7/3.xml`. -/
theorem list_xml_files_distinct_spec_witness :
    (∃ rs : List (List PyStr),
      rs.flatten
        = (["7/3.xml".data, "9/5.xml".data] : List PyStr).filter
            (fun x => PyStr.endsWith x ".xml".data) ∧
      (∀ r ∈ rs, r ≠ []) ∧
      (∀ r ∈ rs, ∀ p ∈ r, get_imdb_id p = get_imdb_id (r.headD [])) ∧
      List.Chain'
        (fun r s => get_imdb_id (r.headD []) ≠ get_imdb_id (s.headD []))
        rs ∧
      (list_xml_files ["7/3.xml".data, "9/5.xml".data] true).Perm
        (rs.map (fun r => r.headD [])) ∧
      (list_xml_files ["7/3.xml".data, "9/5.xml".data] true).Sorted
        (fun a b => PyStr.le a b = true) ∧
      (list_xml_files ["7/3.xml".data, "9/5.xml".data] true).length
        = rs.length ∧
      ∀ p ∈ list_xml_files ["7/3.xml".data, "9/5.xml".data] true,
        p ∈ (["7/3.xml".data, "9/5.xml".data] : List PyStr) ∧
          PyStr.endsWith p ".xml".data = true) ∧
    ("7/3.xml".data ∈ (["7/3.xml".data, "9/5.xml".data] : List PyStr) ∧
      PyStr.endsWith "7/3.xml".data ".xml".data = true) := by
  refine ⟨list_xml_files_distinct_spec ["7/3.xml".data, "9/5.xml".data],
    ?_⟩
  obtain ⟨rs, h⟩ :=
    list_xml_files_distinct_spec ["7/3.xml".data, "9/5.xml".data]
  exact h.2.2.2.2.2.2.2 "7/3.xml".data (by decide)
